import Mathlib

/-!
Verification of the suggestion-reconciliation engine of the Write-flow-ai
editor.  The definitions below are a shallow embedding of the TypeScript
source:

* `findWordBoundaries` embeds the helper of the same name in the editor
  component (the span locator): it builds the regex
  `\b<escaped lowercased trimmed word>\b` with flags `gi` and collects all
  matches of it against the text.
* `reconcile` embeds the span-resolution part of `handleAcceptSuggestion`
  (exact span match, then case/trim-insensitive span match, then relocation
  to the word-boundary match closest to the stated start).
* `applyOne` embeds `handleAcceptSuggestion`'s pure effect on the text and
  cursor (bounds guard, reconciliation, splice).
* `applyAll` embeds `handleAcceptAllSuggestions` (stable descending sort by
  stated start, then a right-to-left fold that relocates each suggestion
  against the progressively mutated text and skips unlocatable ones).
* `validate` embeds the response-processing pipeline of
  `useGrammarCheck.checkText` (filter, clamp, de-duplicate, ascending sort).

Text is modelled as `List Char`; offsets that can come from the remote
model are `Int` (they may be negative).  JavaScript specifics that the
model reproduces: `String.prototype.substring` clamps and swaps its
arguments; `Array.prototype.sort` is stable; regex `\b` holds at a
position whose two neighbours (string edges counting as non-word) differ
in word-character status; `\w` is `[A-Za-z0-9_]`.
-/

namespace WriteFlow

/-- Document text, one entry per UTF-16 code unit of the JS string (the
claims only involve ASCII, where code units and characters coincide). -/
abbrev Text := List Char

/-- ASCII lowercasing as performed by `String.prototype.toLowerCase` on the
ASCII range: `A`..`Z` (code points 65..90) shift by 32, everything else is
unchanged.  Non-ASCII letters (which JS would also lowercase) are outside
the model; the claims only exercise ASCII. -/
def jsToLower (c : Char) : Char :=
  if 65 ≤ c.toNat ∧ c.toNat ≤ 90 then Char.ofNat (c.toNat + 32) else c

/-- `s.toLowerCase()` on a JS string. -/
def lowerStr (s : Text) : Text := s.map jsToLower

/-- `s.trim()` on a JS string (ASCII whitespace; the exotic Unicode
whitespace JS also trims does not occur in the claims). -/
def jsTrim (s : Text) : Text :=
  ((s.dropWhile Char.isWhitespace).reverse.dropWhile Char.isWhitespace).reverse

/-- Regex `\w`: `[A-Za-z0-9_]`. -/
def isWordChar (c : Char) : Bool :=
  (65 ≤ c.toNat && c.toNat ≤ 90) || (97 ≤ c.toNat && c.toNat ≤ 122) ||
    (48 ≤ c.toNat && c.toNat ≤ 57) || c.toNat == 95

/-- A located occurrence, as pushed by `findWordBoundaries`:
`{start: match.index, end: match.index + match[0].length, text: match[0]}`.
The source field `end` is called `stop` here (`end` is reserved in Lean). -/
structure WMatch where
  start : Nat
  stop : Nat
  text : Text
deriving DecidableEq

/-- Whether position `i` of `t` holds a word character (out of range, i.e.
a string edge, counts as non-word, as for regex `\b`). -/
def isWordAt (t : Text) (i : Nat) : Bool :=
  match t[i]? with
  | some c => isWordChar c
  | none => false

/-- Regex `\b` at position `i` (`0 ≤ i ≤ t.length`): the two neighbouring
positions differ in word-character status. -/
def boundaryAt (t : Text) (i : Nat) : Bool :=
  (if i = 0 then false else isWordAt t (i - 1)) != isWordAt t i

/-- The regex `\b<sw>\b` (flags `gi`, `sw` already lowercased) matches `t`
at position `i`: the slice of length `sw.length` at `i` equals `sw`
case-insensitively and `\b` holds at both ends. -/
def matchAt (t : Text) (sw : Text) (i : Nat) : Bool :=
  decide (lowerStr ((t.drop i).take sw.length) = sw) &&
    boundaryAt t i && boundaryAt t (i + sw.length)

/-- The `regex.exec` loop of `findWordBoundaries`: scan forward from
position `i`, and after a match resume at its end (`lastIndex`).  `fuel`
is an upper bound on the number of steps; `findWordBoundaries` supplies
`t.length + 1`, which is exact because each step advances `i` by at least
one (the caller guarantees `sw ≠ []`). -/
def wbScan (t sw : Text) (i : Nat) : Nat → List WMatch
  | 0 => []
  | fuel + 1 =>
    if t.length < i then []
    else if matchAt t sw i then
      ⟨i, i + sw.length, (t.drop i).take sw.length⟩ :: wbScan t sw (i + sw.length) fuel
    else wbScan t sw (i + 1) fuel

/-- The span locator `findWordBoundaries(text, word, startSearchPos = 0)`.
Faithful quirks of the source: the local `searchText = text.toLowerCase()`
is computed but never used; `startSearchPos` is accepted but never used;
matches are produced in document order.  One modelling boundary: on a word
whose trimmed form is empty the JS code loops forever (a zero-length regex
match never advances `lastIndex`), so the model returns `[]` there and the
theorems that depend on locator output assume a nonempty trimmed word. -/
def findWordBoundaries (text word : Text) (_startSearchPos : Nat) : List WMatch :=
  let searchWord := jsTrim (lowerStr word)
  if searchWord.isEmpty then [] else wbScan text searchWord 0 (text.length + 1)

/-- `Math.abs(match.start - hint)`. -/
def distTo (hint : Int) (m : WMatch) : Nat := (Int.ofNat m.start - hint).natAbs

/-- The closest-match selection loop shared (as duplicated code) by
`handleAcceptSuggestion` and `handleAcceptAllSuggestions`:
`closestMatch = wordMatches[0]`, then a pass over all matches replacing it
whenever a strictly smaller distance to the hinted start is seen. -/
def pickClosest (hint : Int) : List WMatch → Option WMatch
  | [] => none
  | m :: ms =>
    some ((m :: ms).foldl (fun best cand =>
      if distTo hint cand < distTo hint best then cand else best) m)

/-- A suggestion's `position` field.  The source field `end` is called
`stop` here.  Fields are `Int` because remote offsets may be negative. -/
structure Pos where
  start : Int
  stop : Int
deriving DecidableEq

/-- The fields of a suggestion that the editor-side engine reads. -/
structure Suggestion where
  original : Text
  correction : Text
  position : Pos
deriving DecidableEq

/-- `String.prototype.substring(a, b)`: both arguments are clamped into
`[0, length]` and swapped if out of order. -/
def jsSubstring (t : Text) (a b : Int) : Text :=
  let a' := (max 0 (min a (t.length : Int))).toNat
  let b' := (max 0 (min b (t.length : Int))).toNat
  (t.drop (min a' b')).take (max a' b' - min a' b')

/-- `String.prototype.substring(a)` (one argument). -/
def jsSubstringFrom (t : Text) (a : Int) : Text := jsSubstring t a (t.length : Int)

/-- The span-resolution part of `handleAcceptSuggestion` (runs after the
bounds guard there; spec 4.3 calls it the Reconciler): exact span match,
else case/trim-insensitive span match, else relocate to the word-boundary
match closest to the stated start; `none` when no match exists. -/
def reconcile (content : Text) (s : Suggestion) : Option Pos :=
  let actualText := jsSubstring content s.position.start s.position.stop
  if actualText = s.original then some s.position
  else if jsTrim (lowerStr actualText) = jsTrim (lowerStr s.original) then some s.position
  else
    match pickClosest s.position.start (findWordBoundaries content s.original 0) with
    | some m => some ⟨(m.start : Int), (m.stop : Int)⟩
    | none => none

/-- The pure result of accepting one suggestion: the new text and
`newPosition = correctedPosition.start + suggestion.correction.length`. -/
structure ApplyResult where
  newText : Text
  newCursorOffset : Int
deriving DecidableEq

/-- The pure text effect of `handleAcceptSuggestion`: the bounds guard
(`start < 0 || end > content.length || start >= end` aborts), then
reconciliation, then the splice
`content.substring(0, start) + correction + content.substring(end)`.
`none` means the handler returned without touching the text. -/
def applyOne (content : Text) (s : Suggestion) : Option ApplyResult :=
  if s.position.start < 0 ∨ (content.length : Int) < s.position.stop ∨
      s.position.stop ≤ s.position.start then none
  else
    match reconcile content s with
    | none => none
    | some p =>
      some ⟨jsSubstring content 0 p.start ++ s.correction ++ jsSubstringFrom content p.stop,
            p.start + (s.correction.length : Int)⟩

/-- How `handleAcceptAllSuggestions` resolves one suggestion against the
current text: straight to the locator plus closest-match selection (it has
no exact or case/trim-insensitive span tier). -/
def applyAllResolve (t : Text) (s : Suggestion) : Option Pos :=
  match pickClosest s.position.start (findWordBoundaries t s.original 0) with
  | some m => some ⟨(m.start : Int), (m.stop : Int)⟩
  | none => none

/-- One iteration of the `forEach` in `handleAcceptAllSuggestions`: splice
and count on a located match, leave the accumulator unchanged otherwise. -/
def applyAllStep (acc : Text × Nat) (s : Suggestion) : Text × Nat :=
  match applyAllResolve acc.1 s with
  | some p =>
    (jsSubstring acc.1 0 p.start ++ s.correction ++ jsSubstringFrom acc.1 p.stop, acc.2 + 1)
  | none => acc

/-- Stable insertion used to model `Array.prototype.sort` (stable per
ES2019): `before x y` says the earlier element `x` may stay in front of
`y`; it holds on ties so that the original order is kept. -/
def stableInsert {α : Type} (before : α → α → Bool) (x : α) : List α → List α
  | [] => [x]
  | y :: ys => if before x y then x :: y :: ys else y :: stableInsert before x ys

/-- Stable sort (insertion sort; extensionally the unique stable sort for
the given comparator, hence a faithful model of `Array.prototype.sort`). -/
def stableSort {α : Type} (before : α → α → Bool) (l : List α) : List α :=
  l.foldr (stableInsert before) []

/-- `[...suggestions].sort((a, b) => b.position.start - a.position.start)`:
stable descending sort by stated start. -/
def sortDescByStart (l : List Suggestion) : List Suggestion :=
  stableSort (fun x y => decide (y.position.start ≤ x.position.start)) l

/-- The pure effect of `handleAcceptAllSuggestions`: sort descending by
stated start, then fold `applyAllStep` left to right over the sorted list
(i.e. right to left over the document), returning the final text and
`appliedCount`. -/
def applyAll (content : Text) (suggestions : List Suggestion) : Text × Nat :=
  (sortDescByStart suggestions).foldl applyAllStep (content, 0)

/-- A raw suggestion of the remote response, as consumed by
`useGrammarCheck.checkText`.  The JS structural checks (field presence and
`typeof ... === 'number'`) are guaranteed by this type; the numeric and
string content is arbitrary. -/
structure RawSuggestion where
  position : Pos
  original : Text
  correction : Text
  explanation : Text
deriving DecidableEq

/-- The filter predicate of `checkText`, in source order:
`start >= 0`, `end <= text.length`, `start < end`, truthy `original`,
`correction` and `explanation` (empty strings are falsy), and
`original !== correction` (exact, case- and whitespace-sensitive). -/
def validFilter (textLen : Nat) (s : RawSuggestion) : Bool :=
  decide (0 ≤ s.position.start) && decide (s.position.stop ≤ (textLen : Int)) &&
    decide (s.position.start < s.position.stop) &&
    !s.original.isEmpty && !s.correction.isEmpty && !s.explanation.isEmpty &&
    (s.original != s.correction)

/-- The clamp of the `map` step of `checkText`:
`Math.max(0, Math.min(bound, text.length))` on each bound. -/
def clampPos (textLen : Nat) (p : Pos) : Pos :=
  ⟨max 0 (min p.start (textLen : Int)), max 0 (min p.stop (textLen : Int))⟩

/-- The `map` step of `checkText` without the opaque id it also assigns. -/
def clampSuggestion (textLen : Nat) (r : RawSuggestion) : RawSuggestion :=
  ⟨clampPos textLen r.position, r.original, r.correction, r.explanation⟩

/-- The duplicate test of `checkText`: same `position.start`,
`position.end` and `original`. -/
def sameTriple (a b : RawSuggestion) : Bool :=
  a.position.start == b.position.start && a.position.stop == b.position.stop &&
    a.original == b.original

/-- The de-duplication filter of `checkText`: an element is kept iff no
element earlier in the (post-map) array shares its triple;
`seen` accumulates the already-scanned prefix (`array.slice(0, index)`). -/
def dedupScan (seen : List RawSuggestion) : List RawSuggestion → List RawSuggestion
  | [] => []
  | s :: rest =>
    if seen.any (fun p => sameTriple p s) then dedupScan (seen ++ [s]) rest
    else s :: dedupScan (seen ++ [s]) rest

/-- `.sort((a, b) => a.position.start - b.position.start)`: stable
ascending sort by start. -/
def sortAscByStart (l : List RawSuggestion) : List RawSuggestion :=
  stableSort (fun x y => decide (x.position.start ≤ y.position.start)) l

/-- The whole response-processing pipeline of `checkText` (the spec's
Suggestion Validator): filter, then clamp, then de-duplicate, then sort
ascending by start. -/
def validate (textLen : Nat) (raw : List RawSuggestion) : List RawSuggestion :=
  sortAscByStart
    (dedupScan [] ((raw.filter (validFilter textLen)).map (clampSuggestion textLen)))

/-- Whether the head of a string is a word character (`true` on empty). -/
def headIsWord (s : Text) : Bool :=
  match s.head? with
  | some c => isWordChar c
  | none => true

/-- Whether the last character of a string is a word character
(`true` on empty). -/
def lastIsWord (s : Text) : Bool :=
  match s.getLast? with
  | some c => isWordChar c
  | none => true

/-- The ordering the spec asserts for locator output: ascending distance
of the match start from the hinted start, ties by ascending start. -/
def orderedByDistanceThenStart (hint : Int) (l : List WMatch) : Prop :=
  l.Pairwise (fun a b =>
    distTo hint a < distTo hint b ∨ (distTo hint a = distTo hint b ∧ a.start ≤ b.start))

instance (hint : Int) (l : List WMatch) : Decidable (orderedByDistanceThenStart hint l) :=
  inferInstanceAs (Decidable (l.Pairwise _))

/-! ### Character-level lemmas -/

theorem char_toNat_ofNat (n : Nat) (h : Nat.isValidChar n) : (Char.ofNat n).toNat = n := by
  simp [Char.ofNat, h, Char.ofNatAux, Char.toNat, UInt32.toNat, BitVec.toNat_ofNatLt]

theorem jsToLower_toNat_upper (c : Char) (h : 65 ≤ c.toNat ∧ c.toNat ≤ 90) :
    (jsToLower c).toNat = c.toNat + 32 := by
  rw [jsToLower, if_pos h, char_toNat_ofNat]
  exact Or.inl (by omega)

theorem char_eq_iff_toNat (a b : Char) : a = b ↔ a.toNat = b.toNat := by
  constructor
  · intro h; rw [h]
  · intro h; exact Char.ext (UInt32.ext h)

theorem isWhitespace_iff_toNat (c : Char) :
    c.isWhitespace = true ↔ (c.toNat = 32 ∨ c.toNat = 9 ∨ c.toNat = 13 ∨ c.toNat = 10) := by
  simp only [Char.isWhitespace, Bool.or_eq_true, decide_eq_true_eq,
    char_eq_iff_toNat]
  rw [show (' '.toNat) = 32 from rfl, show ('\t'.toNat) = 9 from rfl,
    show ('\x0d'.toNat) = 13 from rfl, show ('\n'.toNat) = 10 from rfl]
  tauto

theorem isWordChar_iff_toNat (c : Char) :
    isWordChar c = true ↔ ((65 ≤ c.toNat ∧ c.toNat ≤ 90) ∨ (97 ≤ c.toNat ∧ c.toNat ≤ 122) ∨
      (48 ≤ c.toNat ∧ c.toNat ≤ 57) ∨ c.toNat = 95) := by
  simp only [isWordChar, Bool.or_eq_true, Bool.and_eq_true, decide_eq_true_eq,
    Nat.beq_eq_true_eq]
  tauto

theorem jsToLower_isWhitespace (c : Char) :
    (jsToLower c).isWhitespace = c.isWhitespace := by
  by_cases h : 65 ≤ c.toNat ∧ c.toNat ≤ 90
  · have h1 := jsToLower_toNat_upper c h
    have hl : ¬ ((jsToLower c).isWhitespace = true) := by
      rw [isWhitespace_iff_toNat, h1]; omega
    have hr : ¬ (c.isWhitespace = true) := by
      rw [isWhitespace_iff_toNat]; omega
    rw [Bool.not_eq_true] at hl hr
    rw [hl, hr]
  · rw [jsToLower, if_neg h]

theorem isWordChar_of_jsToLower (c : Char) (h : isWordChar (jsToLower c) = true) :
    isWordChar c = true := by
  by_cases hc : 65 ≤ c.toNat ∧ c.toNat ≤ 90
  · rw [isWordChar_iff_toNat]
    exact Or.inl hc
  · rwa [jsToLower, if_neg hc] at h

theorem lowerStr_length (s : Text) : (lowerStr s).length = s.length :=
  List.length_map s jsToLower

theorem jsTrim_lowerStr (w : Text) : jsTrim (lowerStr w) = lowerStr (jsTrim w) := by
  have hp : Char.isWhitespace ∘ jsToLower = Char.isWhitespace :=
    funext fun c => jsToLower_isWhitespace c
  unfold jsTrim lowerStr
  rw [List.dropWhile_map, hp, ← List.map_reverse, List.dropWhile_map, hp,
    ← List.map_reverse]

/-! ### Locator scan invariants -/

theorem matchAt_parts (t sw : Text) (i : Nat) (h : matchAt t sw i = true) :
    lowerStr ((t.drop i).take sw.length) = sw ∧ boundaryAt t i = true ∧
      boundaryAt t (i + sw.length) = true := by
  simpa [matchAt, Bool.and_eq_true, decide_eq_true_eq, and_assoc] using h

theorem matchAt_length (t sw : Text) (i : Nat) (hsw : sw ≠ []) (h : matchAt t sw i = true) :
    i + sw.length ≤ t.length := by
  have h1 := (matchAt_parts t sw i h).1
  have h2 : ((t.drop i).take sw.length).length = sw.length := by
    rw [← lowerStr_length ((t.drop i).take sw.length), h1]
  have h3 : 0 < sw.length := List.length_pos.mpr hsw
  simp only [List.length_take, List.length_drop] at h2
  omega

theorem matchAt_char (t sw : Text) (i k : Nat) (h : matchAt t sw i = true)
    (hk : k < sw.length) : ∃ c, t[i + k]? = some c ∧ sw[k]? = some (jsToLower c) := by
  have h1 := (matchAt_parts t sw i h).1
  have hsw : sw ≠ [] := List.length_pos.mp (by omega)
  have hlen := matchAt_length t sw i hsw h
  have hik : i + k < t.length := by omega
  have hge : (lowerStr ((t.drop i).take sw.length))[k]? = sw[k]? := by rw [h1]
  rw [lowerStr, List.getElem?_map, List.getElem?_take_of_lt hk, List.getElem?_drop] at hge
  cases hget : t[i + k]? with
  | none =>
    rw [List.getElem?_eq_none_iff] at hget
    omega
  | some c =>
    refine ⟨c, rfl, ?_⟩
    rw [← hge, hget, Option.map_some']

theorem wbScan_mem (t sw : Text) : ∀ (fuel i : Nat) (m : WMatch),
    m ∈ wbScan t sw i fuel →
      i ≤ m.start ∧ matchAt t sw m.start = true ∧ m.stop = m.start + sw.length ∧
        m.text = (t.drop m.start).take sw.length := by
  intro fuel
  induction fuel with
  | zero => intro i m h; simp [wbScan] at h
  | succ n ih =>
    intro i m h
    rw [wbScan] at h
    split at h
    · simp at h
    · split at h
      · rcases List.mem_cons.mp h with rfl | h'
        · exact ⟨Nat.le_refl _, by assumption, rfl, rfl⟩
        · have := ih (i + sw.length) m h'
          exact ⟨by omega, this.2⟩
      · have := ih (i + 1) m h
        exact ⟨by omega, this.2⟩

theorem wbScan_pairwise (t sw : Text) : ∀ (fuel i : Nat),
    (wbScan t sw i fuel).Pairwise (fun a b => a.stop ≤ b.start) := by
  intro fuel
  induction fuel with
  | zero => intro i; simp [wbScan]
  | succ n ih =>
    intro i
    rw [wbScan]
    split
    · simp
    · split
      · refine List.Pairwise.cons ?_ (ih _)
        intro b hb
        have := (wbScan_mem t sw n (i + sw.length) b hb).1
        simpa using this
      · exact ih _

theorem findWordBoundaries_mem (text word : Text) (hint : Nat) (m : WMatch)
    (h : m ∈ findWordBoundaries text word hint) :
    jsTrim (lowerStr word) ≠ [] ∧
      matchAt text (jsTrim (lowerStr word)) m.start = true ∧
      m.stop = m.start + (jsTrim (lowerStr word)).length ∧
      m.text = (text.drop m.start).take (jsTrim (lowerStr word)).length := by
  rw [findWordBoundaries] at h
  split at h
  · simp at h
  · rename_i hne
    have := wbScan_mem text (jsTrim (lowerStr word)) (text.length + 1) 0 m h
    exact ⟨by simpa [List.isEmpty_iff] using hne, this.2⟩

theorem findWordBoundaries_pairwise_disjoint (text word : Text) (hint : Nat) :
    (findWordBoundaries text word hint).Pairwise (fun a b => a.stop ≤ b.start) := by
  rw [findWordBoundaries]
  split
  · simp
  · exact wbScan_pairwise _ _ _ _

theorem findWordBoundaries_pairwise_lt (text word : Text) (hint : Nat) :
    (findWordBoundaries text word hint).Pairwise (fun a b => a.start < b.start) := by
  refine (findWordBoundaries_pairwise_disjoint text word hint).imp_of_mem ?_
  intro a b ha hb hab
  have fa := findWordBoundaries_mem text word hint a ha
  have hlen : jsTrim (lowerStr word) ≠ [] := fa.1
  have : 0 < (jsTrim (lowerStr word)).length := List.length_pos.mpr hlen
  have := fa.2.2.1
  omega

/-! ### The closest-match fold -/

theorem pickClosest_fold (hint : Int) : ∀ (ms : List WMatch) (acc : WMatch),
    (acc :: ms).Pairwise (fun a b => a.start < b.start) →
      (ms.foldl (fun best cand =>
          if distTo hint cand < distTo hint best then cand else best) acc = acc ∨
        ms.foldl (fun best cand =>
          if distTo hint cand < distTo hint best then cand else best) acc ∈ ms) ∧
      ∀ m' ∈ acc :: ms,
        distTo hint (ms.foldl (fun best cand =>
          if distTo hint cand < distTo hint best then cand else best) acc) ≤ distTo hint m' ∧
        (distTo hint (ms.foldl (fun best cand =>
            if distTo hint cand < distTo hint best then cand else best) acc) =
            distTo hint m' →
          (ms.foldl (fun best cand =>
            if distTo hint cand < distTo hint best then cand else best) acc).start ≤
            m'.start) := by
  intro ms
  induction ms with
  | nil =>
    intro acc _
    refine ⟨Or.inl rfl, ?_⟩
    intro m' hm'
    rcases List.mem_singleton.mp hm' with rfl
    exact ⟨Nat.le_refl _, fun _ => Nat.le_refl _⟩
  | cons m tl ih =>
    intro acc hpw
    have hpw' : (m :: tl).Pairwise (fun a b => a.start < b.start) :=
      (List.pairwise_cons.mp hpw).2
    have hacc_m : acc.start < m.start := (List.pairwise_cons.mp hpw).1 m (List.mem_cons_self m tl)
    have hacc_tl : ∀ b ∈ tl, acc.start < b.start := fun b hb =>
      (List.pairwise_cons.mp hpw).1 b (List.mem_cons_of_mem m hb)
    simp only [List.foldl_cons]
    by_cases hlt : distTo hint m < distTo hint acc
    · rw [if_pos hlt]
      obtain ⟨hmem, hmin⟩ := ih m hpw'
      constructor
      · rcases hmem with h | h
        · rw [h]; exact Or.inr (List.mem_cons_self m tl)
        · exact Or.inr (List.mem_cons_of_mem m h)
      · intro m' hm'
        rcases List.mem_cons.mp hm' with rfl | hm'2
        · have h1 := (hmin m (List.mem_cons_self m tl)).1
          exact ⟨by omega, fun _ => by omega⟩
        · exact hmin m' hm'2
    · rw [if_neg hlt]
      have hpw2 : (acc :: tl).Pairwise (fun a b => a.start < b.start) := by
        rw [List.pairwise_cons]
        exact ⟨hacc_tl, (List.pairwise_cons.mp hpw').2⟩
      obtain ⟨hmem, hmin⟩ := ih acc hpw2
      constructor
      · rcases hmem with h | h
        · exact Or.inl h
        · exact Or.inr (List.mem_cons_of_mem m h)
      · intro m' hm'
        rcases List.mem_cons.mp hm' with rfl | hm'2
        · exact hmin _ (List.mem_cons_self _ tl)
        · rcases List.mem_cons.mp hm'2 with rfl | hm'3
          · have h1 := (hmin _ (List.mem_cons_self _ tl)).1
            refine ⟨by omega, fun he => ?_⟩
            have h2 := (hmin _ (List.mem_cons_self _ tl)).2 (by omega)
            omega
          · exact hmin m' (List.mem_cons_of_mem _ hm'3)

theorem pickClosest_spec (hint : Int) (l : List WMatch) (hl : l ≠ [])
    (hasc : l.Pairwise (fun a b => a.start < b.start)) :
    ∃ m, pickClosest hint l = some m ∧ m ∈ l ∧
      ∀ m' ∈ l, distTo hint m ≤ distTo hint m' ∧
        (distTo hint m = distTo hint m' → m.start ≤ m'.start) := by
  cases l with
  | nil => exact absurd rfl hl
  | cons m0 ms =>
    have step : (List.foldl (fun best cand =>
        if distTo hint cand < distTo hint best then cand else best) m0 (m0 :: ms)) =
        List.foldl (fun best cand =>
          if distTo hint cand < distTo hint best then cand else best) m0 ms := by
      simp only [List.foldl_cons, ite_self]
    obtain ⟨hmem, hmin⟩ := pickClosest_fold hint ms m0 hasc
    refine ⟨_, by rw [pickClosest, step], ?_, ?_⟩
    · rcases hmem with h | h
      · rw [h]; exact List.mem_cons_self m0 ms
      · exact List.mem_cons_of_mem m0 h
    · exact hmin

/-! ### JS substring lemmas -/

theorem jsSubstring_spec (t : Text) (a b : Int) (h0 : 0 ≤ a) (hab : a ≤ b)
    (hb : b ≤ (t.length : Int)) :
    jsSubstring t a b = (t.drop a.toNat).take (b.toNat - a.toNat) := by
  have e1 : max 0 (min a (t.length : Int)) = a := by omega
  have e2 : max 0 (min b (t.length : Int)) = b := by omega
  simp only [jsSubstring, e1, e2]
  have e3 : min a.toNat b.toNat = a.toNat := by omega
  have e4 : max a.toNat b.toNat = b.toNat := by omega
  rw [e3, e4]

theorem jsSubstring_zero (t : Text) (a : Int) (h0 : 0 ≤ a) (h : a ≤ (t.length : Int)) :
    jsSubstring t 0 a = t.take a.toNat := by
  rw [jsSubstring_spec t 0 a le_rfl h0 h]
  simp

theorem jsSubstringFrom_drop (t : Text) (a : Int) (h0 : 0 ≤ a) (h : a ≤ (t.length : Int)) :
    jsSubstringFrom t a = t.drop a.toNat := by
  rw [jsSubstringFrom, jsSubstring_spec t a (t.length : Int) h0 h le_rfl]
  have : ((t.length : Int)).toNat - a.toNat = (t.drop a.toNat).length := by
    rw [List.length_drop, Int.toNat_natCast]
  rw [this, List.take_length]

/-! ### Stable sort lemmas -/

theorem stableInsert_perm {α : Type} (b : α → α → Bool) (x : α) (l : List α) :
    List.Perm (stableInsert b x l) (x :: l) := by
  induction l with
  | nil => exact List.Perm.refl _
  | cons y ys ih =>
    rw [stableInsert]
    split
    · exact List.Perm.refl _
    · exact List.Perm.trans (List.Perm.cons y ih) (List.Perm.swap x y ys)

theorem stableSort_perm {α : Type} (b : α → α → Bool) (l : List α) :
    List.Perm (stableSort b l) l := by
  induction l with
  | nil => exact List.Perm.refl _
  | cons x xs ih =>
    exact List.Perm.trans (stableInsert_perm b x (stableSort b xs)) (List.Perm.cons x ih)

theorem stableInsert_pairwise {α : Type} (b : α → α → Bool) (R : α → α → Prop)
    (hby : ∀ u v, b u v = true → R u v) (hbn : ∀ u v, b u v = false → R v u)
    (htr : ∀ u v w, R u v → R v w → R u w) (x : α) (l : List α)
    (hl : l.Pairwise R) : (stableInsert b x l).Pairwise R := by
  induction l with
  | nil => simp [stableInsert]
  | cons y ys ih =>
    rw [stableInsert]
    split
    · rename_i hxy
      rw [List.pairwise_cons]
      refine ⟨?_, hl⟩
      intro z hz
      rcases List.mem_cons.mp hz with rfl | hz'
      · exact hby x z hxy
      · exact htr x y z (hby x y hxy) ((List.pairwise_cons.mp hl).1 z hz')
    · rename_i hxy
      rw [List.pairwise_cons]
      refine ⟨?_, ih (List.pairwise_cons.mp hl).2⟩
      intro z hz
      have : z = x ∨ z ∈ ys :=
        List.mem_cons.mp ((stableInsert_perm b x ys).mem_iff.mp hz)
      rcases this with rfl | hz'
      · exact hbn z y (Bool.eq_false_iff.mpr hxy)
      · exact (List.pairwise_cons.mp hl).1 z hz'

theorem stableSort_pairwise {α : Type} (b : α → α → Bool) (R : α → α → Prop)
    (hby : ∀ u v, b u v = true → R u v) (hbn : ∀ u v, b u v = false → R v u)
    (htr : ∀ u v w, R u v → R v w → R u w) (l : List α) :
    (stableSort b l).Pairwise R := by
  induction l with
  | nil => simp [stableSort]
  | cons x xs ih => exact stableInsert_pairwise b R hby hbn htr x _ ih

/-! ### Validator pipeline lemmas -/

theorem dedupScan_subset (l : List RawSuggestion) : ∀ (seen : List RawSuggestion)
    (s : RawSuggestion), s ∈ dedupScan seen l → s ∈ l := by
  induction l with
  | nil => intro seen s h; simp [dedupScan] at h
  | cons x xs ih =>
    intro seen s h
    rw [dedupScan] at h
    split at h
    · exact List.mem_cons_of_mem x (ih _ s h)
    · rcases List.mem_cons.mp h with rfl | h'
      · exact List.mem_cons_self s xs
      · exact List.mem_cons_of_mem x (ih _ s h')

theorem validate_mem (textLen : Nat) (raw : List RawSuggestion) (s : RawSuggestion)
    (h : s ∈ validate textLen raw) :
    ∃ r ∈ raw, validFilter textLen r = true ∧ s = clampSuggestion textLen r := by
  rw [validate] at h
  have h1 := (stableSort_perm _ _).mem_iff.mp h
  have h2 := dedupScan_subset _ [] s h1
  obtain ⟨r, hr, hs⟩ := List.mem_map.mp h2
  obtain ⟨hraw, hfil⟩ := List.mem_filter.mp hr
  exact ⟨r, hraw, hfil, hs.symm⟩

theorem validFilter_parts (textLen : Nat) (r : RawSuggestion)
    (h : validFilter textLen r = true) :
    0 ≤ r.position.start ∧ r.position.stop ≤ (textLen : Int) ∧
      r.position.start < r.position.stop ∧ r.original ≠ r.correction := by
  simp only [validFilter, Bool.and_eq_true, decide_eq_true_eq, bne_iff_ne] at h
  exact ⟨h.1.1.1.1.1.1, h.1.1.1.1.1.2, h.1.1.1.1.2, h.2⟩

theorem clampPos_of_valid (textLen : Nat) (r : RawSuggestion)
    (h : validFilter textLen r = true) : clampPos textLen r.position = r.position := by
  obtain ⟨h1, h2, h3, _⟩ := validFilter_parts textLen r h
  have e1 : max 0 (min r.position.start (textLen : Int)) = r.position.start := by omega
  have e2 : max 0 (min r.position.stop (textLen : Int)) = r.position.stop := by omega
  rw [clampPos, e1, e2]

/-! ### The claims -/

/-- C1: for every text and suggestion, reconciliation follows the
three-tier fallback: an exact match of the text at the stated span returns
the span unchanged; else a case-insensitive, trim-insensitive match
returns it unchanged; else, when the locator finds at least one match for
the original, the match with smallest absolute distance of its start from
the stated start is returned, ties broken by smallest start offset; in
particular, for text `"The qick fox"` and a suggestion with original
`"qick"` and stated span `[0, 4)`, reconcile returns the span `[4, 8)`. -/
theorem c1_reconcile_three_tier_fallback (text : Text) (s : Suggestion) :
    (jsSubstring text s.position.start s.position.stop = s.original →
      reconcile text s = some s.position) ∧
    (jsSubstring text s.position.start s.position.stop ≠ s.original →
      jsTrim (lowerStr (jsSubstring text s.position.start s.position.stop)) =
        jsTrim (lowerStr s.original) →
      reconcile text s = some s.position) ∧
    (jsSubstring text s.position.start s.position.stop ≠ s.original →
      jsTrim (lowerStr (jsSubstring text s.position.start s.position.stop)) ≠
        jsTrim (lowerStr s.original) →
      findWordBoundaries text s.original 0 ≠ [] →
      ∃ m, pickClosest s.position.start (findWordBoundaries text s.original 0) = some m ∧
        reconcile text s = some ⟨(m.start : Int), (m.stop : Int)⟩ ∧
        m ∈ findWordBoundaries text s.original 0 ∧
        ∀ m' ∈ findWordBoundaries text s.original 0,
          distTo s.position.start m ≤ distTo s.position.start m' ∧
          (distTo s.position.start m = distTo s.position.start m' → m.start ≤ m'.start)) ∧
    reconcile "The qick fox".toList ⟨"qick".toList, "quick".toList, ⟨0, 4⟩⟩ =
      some ⟨4, 8⟩ := by
  refine ⟨?_, ?_, ?_, by decide⟩
  · intro h1
    simp only [reconcile]
    rw [if_pos h1]
  · intro h1 h2
    simp only [reconcile]
    rw [if_neg h1, if_pos h2]
  · intro h1 h2 h3
    obtain ⟨m, hpick, hmem, hmin⟩ :=
      pickClosest_spec s.position.start (findWordBoundaries text s.original 0) h3
        (findWordBoundaries_pairwise_lt text s.original 0)
    refine ⟨m, hpick, ?_, hmem, hmin⟩
    simp only [reconcile]
    rw [if_neg h1, if_neg h2, hpick]

/-- Witness for C1: the relocation tier applied at the spec's concrete
example, with all of its hypotheses discharged by evaluation. -/
theorem c1_reconcile_three_tier_fallback_witness :
    jsSubstring "The qick fox".toList 0 4 ≠ "qick".toList ∧
    reconcile "The qick fox".toList ⟨"qick".toList, "quick".toList, ⟨0, 4⟩⟩ =
      some ⟨4, 8⟩ := by
  constructor
  · decide
  · obtain ⟨m, hpick, hrec, -, -⟩ :=
      (c1_reconcile_three_tier_fallback "The qick fox".toList
        ⟨"qick".toList, "quick".toList, ⟨0, 4⟩⟩).2.2.1 (by decide) (by decide) (by decide)
    have hm : m = ⟨4, 8, "qick".toList⟩ := by
      have h2 : some m = some (⟨4, 8, "qick".toList⟩ : WMatch) := by
        rw [← hpick]; decide
      exact Option.some.inj h2
    rw [hm] at hrec
    exact hrec

/-- C2: for every text and every suggestion whose span is in bounds
(`0 ≤ start < end ≤ len(text)`) and matches the original exactly,
apply-one succeeds with `newText = text[:start] + correction + text[end:]`
and new cursor offset `start + len(correction)`. -/
theorem c2_applyOne_exact_span (text : Text) (s : Suggestion)
    (h0 : 0 ≤ s.position.start) (h1 : s.position.start < s.position.stop)
    (h2 : s.position.stop ≤ (text.length : Int))
    (h3 : (text.drop s.position.start.toNat).take
      (s.position.stop.toNat - s.position.start.toNat) = s.original) :
    applyOne text s = some
      ⟨text.take s.position.start.toNat ++ s.correction ++ text.drop s.position.stop.toNat,
        s.position.start + (s.correction.length : Int)⟩ := by
  have hjs : jsSubstring text s.position.start s.position.stop = s.original := by
    rw [jsSubstring_spec text _ _ h0 (le_of_lt h1) h2]
    exact h3
  have hr : reconcile text s = some s.position := by
    simp only [reconcile]
    rw [if_pos hjs]
  rw [applyOne, if_neg (by omega), hr]
  show some (⟨jsSubstring text 0 s.position.start ++ s.correction ++
      jsSubstringFrom text s.position.stop,
    s.position.start + (s.correction.length : Int)⟩ : ApplyResult) = _
  rw [jsSubstring_zero text _ h0 (by omega), jsSubstringFrom_drop text _ (by omega) h2]

/-- Witness for C2 at a concrete in-bounds exact suggestion. -/
theorem c2_applyOne_exact_span_witness :
    applyOne "The cat".toList ⟨"cat".toList, "dog".toList, ⟨4, 7⟩⟩ =
      some ⟨"The dog".toList, 7⟩ := by
  rw [c2_applyOne_exact_span "The cat".toList ⟨"cat".toList, "dog".toList, ⟨4, 7⟩⟩
    (by decide) (by decide) (by decide) (by decide)]
  decide

/-- C3: apply-all sorts the suggestions by descending stated start offset
(stably, keeping a permutation of the input) and folds over that order
against the progressively mutated text, leaving the accumulator unchanged
(and uncounted) for a suggestion the locator cannot place; in particular,
on text `"a b c"` with suggestions `"a"` to `"aa"` at `[0, 1)` and `"c"`
to `"cc"` at `[4, 5)` it yields `"aa b cc"` with applied count 2. -/
theorem c3_applyAll_desc_order_and_skip :
    (∀ (t : Text) (c : Nat) (s : Suggestion), findWordBoundaries t s.original 0 = [] →
      applyAllStep (t, c) s = (t, c)) ∧
    (∀ l : List Suggestion,
      (sortDescByStart l).Pairwise (fun a b => b.position.start ≤ a.position.start) ∧
      List.Perm (sortDescByStart l) l) ∧
    applyAll "a b c".toList
      [⟨"a".toList, "aa".toList, ⟨0, 1⟩⟩, ⟨"c".toList, "cc".toList, ⟨4, 5⟩⟩] =
      ("aa b cc".toList, 2) := by
  refine ⟨?_, ?_, by decide⟩
  · intro t c s h
    simp [applyAllStep, applyAllResolve, h, pickClosest]
  · intro l
    constructor
    · refine stableSort_pairwise _ _ ?_ ?_ ?_ l
      · intro u v h
        exact of_decide_eq_true h
      · intro u v h
        have := of_decide_eq_false h
        omega
      · intro u v w huv hvw
        omega
    · exact stableSort_perm _ l

/-- Witness for C3's skip clause: a suggestion whose original occurs
nowhere leaves the accumulator untouched. -/
theorem c3_applyAll_desc_order_and_skip_witness :
    applyAllStep ("a b c".toList, 0) ⟨"zz".toList, "y".toList, ⟨0, 2⟩⟩ =
      ("a b c".toList, 0) :=
  c3_applyAll_desc_order_and_skip.1 "a b c".toList 0
    ⟨"zz".toList, "y".toList, ⟨0, 2⟩⟩ (by decide)

/-- C4: apply-one returns no result (and hence leaves the text alone) both
when the stated span is out of bounds at apply time (negative start, end
past the text, or start at or past end) and when the original can be
matched neither at its span (exactly or case/trim-insensitively) nor
anywhere else by the locator; the function is total, so it never throws.
The second part assumes a nonempty trimmed original, the regime where the
locator model is faithful (see `findWordBoundaries`). -/
theorem c4_applyOne_notFound_unchanged (text : Text) (s : Suggestion) :
    ((s.position.start < 0 ∨ (text.length : Int) < s.position.stop ∨
        s.position.stop ≤ s.position.start) → applyOne text s = none) ∧
    (jsTrim (lowerStr s.original) ≠ [] →
      jsSubstring text s.position.start s.position.stop ≠ s.original →
      jsTrim (lowerStr (jsSubstring text s.position.start s.position.stop)) ≠
        jsTrim (lowerStr s.original) →
      findWordBoundaries text s.original 0 = [] →
      applyOne text s = none) := by
  constructor
  · intro h
    rw [applyOne, if_pos h]
  · intro hw h1 h2 h3
    rw [applyOne]
    split
    · rfl
    · have hr : reconcile text s = none := by
        simp only [reconcile]
        rw [if_neg h1, if_neg h2, h3]
        rfl
      rw [hr]

/-- Witness for C4: a suggestion whose original appears nowhere in the
text is rejected without effect. -/
theorem c4_applyOne_notFound_unchanged_witness :
    applyOne "hello".toList ⟨"xyz".toList, "q".toList, ⟨0, 3⟩⟩ = none :=
  (c4_applyOne_notFound_unchanged "hello".toList
    ⟨"xyz".toList, "q".toList, ⟨0, 3⟩⟩).2 (by decide) (by decide) (by decide) (by decide)

/-- C5 counterexample: the claim asserts
`locate("category of cats", "cat", 0)` returns (only) the occurrence at
offset 12; in fact the locator returns the empty list for this input
(`"cats"` is itself not a word-boundary match for `"cat"`), so no match at
offset 12 is returned. -/
theorem c5_boundary_counterexample :
    findWordBoundaries "category of cats".toList "cat".toList 0 = [] ∧
    ¬ ∃ m ∈ findWordBoundaries "category of cats".toList "cat".toList 0,
        m.start = 12 := by
  constructor
  · decide
  · decide

/-- C5 (amended): for a search word whose trimmed form begins and ends
with word characters, every returned match is bounded on both sides by a
non-word character or a string edge; and on the concrete input
`("category of cats", "cat")` the locator returns no matches at all. -/
theorem c5_amended_no_partial_word_match (text word : Text) (hint : Nat)
    (hfirst : headIsWord (jsTrim (lowerStr word)) = true)
    (hlast : lastIsWord (jsTrim (lowerStr word)) = true) :
    (∀ m ∈ findWordBoundaries text word hint,
      (m.start = 0 ∨ isWordAt text (m.start - 1) = false) ∧
        isWordAt text m.stop = false) ∧
    findWordBoundaries "category of cats".toList "cat".toList 0 = [] := by
  refine ⟨?_, by decide⟩
  intro m hm
  obtain ⟨hsw, hmatch, hstop, -⟩ := findWordBoundaries_mem text word hint m hm
  have hL : 0 < (jsTrim (lowerStr word)).length := List.length_pos.mpr hsw
  obtain ⟨-, hb1, hb2⟩ := matchAt_parts text _ m.start hmatch
  obtain ⟨c0, hc0, hswc0⟩ := matchAt_char text _ m.start 0 hmatch hL
  have hic0 : isWordChar c0 = true := by
    apply isWordChar_of_jsToLower
    have hh : headIsWord (jsTrim (lowerStr word)) = isWordChar (jsToLower c0) := by
      have hhead : (jsTrim (lowerStr word)).head? = some (jsToLower c0) := by
        rw [List.head?_eq_getElem?]
        exact hswc0
      simp [headIsWord, hhead]
    rw [← hh]
    exact hfirst
  have hc0' : text[m.start]? = some c0 := by simpa using hc0
  have hwordAt0 : isWordAt text m.start = true := by
    simp [isWordAt, hc0', hic0]
  constructor
  · by_cases h0 : m.start = 0
    · exact Or.inl h0
    · right
      rw [boundaryAt, if_neg h0, hwordAt0] at hb1
      simpa using hb1
  · obtain ⟨cl, hcl, hswcl⟩ :=
      matchAt_char text _ m.start ((jsTrim (lowerStr word)).length - 1) hmatch (by omega)
    have hicl : isWordChar cl = true := by
      apply isWordChar_of_jsToLower
      have hh : lastIsWord (jsTrim (lowerStr word)) = isWordChar (jsToLower cl) := by
        have hlast' : (jsTrim (lowerStr word)).getLast? = some (jsToLower cl) := by
          rw [List.getLast?_eq_getElem?]
          exact hswcl
        simp [lastIsWord, hlast']
      rw [← hh]
      exact hlast
    have heq : m.start + ((jsTrim (lowerStr word)).length - 1) = m.stop - 1 := by omega
    have hcl' : text[m.stop - 1]? = some cl := by
      rw [← heq]
      exact hcl
    have hwordAtL : isWordAt text (m.stop - 1) = true := by
      simp [isWordAt, hcl', hicl]
    have hb2' : boundaryAt text m.stop = true := by
      rw [hstop]
      exact hb2
    have hstop0 : ¬ m.stop = 0 := by omega
    rw [boundaryAt, if_neg hstop0, hwordAtL] at hb2'
    simpa using hb2'

/-- Witness for C5 (amended): the single boundary match of `"cat"` in
`"a cat"` has a non-word left neighbour and ends at the string edge. -/
theorem c5_amended_no_partial_word_match_witness :
    ((⟨2, 5, "cat".toList⟩ : WMatch).start = 0 ∨
      isWordAt "a cat".toList ((⟨2, 5, "cat".toList⟩ : WMatch).start - 1) = false) ∧
    isWordAt "a cat".toList (⟨2, 5, "cat".toList⟩ : WMatch).stop = false :=
  (c5_amended_no_partial_word_match "a cat".toList "cat".toList 0
    (by decide) (by decide)).1 ⟨2, 5, "cat".toList⟩ (by decide)

/-- C6 counterexample: for text `"cat dog cat"`, word `"cat"` and hinted
start 8 the locator returns the matches in document order
`[0..3, 8..11]`, which is not ordered by ascending distance from the hint
(the first element has distance 8, the second distance 0). -/
theorem c6_order_counterexample :
    findWordBoundaries "cat dog cat".toList "cat".toList 8 =
      [⟨0, 3, "cat".toList⟩, ⟨8, 11, "cat".toList⟩] ∧
    ¬ orderedByDistanceThenStart 8
      (findWordBoundaries "cat dog cat".toList "cat".toList 8) := by
  constructor
  · decide
  · decide

/-- C6 (amended): the locator returns its matches in strictly ascending
start-offset (document) order, and the hinted start has no effect on the
result at all (the parameter is unused). -/
theorem c6_amended_document_order (text word : Text) (hintStart hintStart' : Nat) :
    (findWordBoundaries text word hintStart).Pairwise (fun a b => a.start < b.start) ∧
    findWordBoundaries text word hintStart = findWordBoundaries text word hintStart' :=
  ⟨findWordBoundaries_pairwise_lt text word hintStart, rfl⟩

/-- C7 counterexample: a structurally well-formed raw suggestion with
start `-1` and end `3` against text length 5 is dropped by the validator,
even though its clamped bounds `[0, 3)` would satisfy `start < end`; the
filter runs before the clamp and rejects out-of-range bounds outright. -/
theorem c7_clamp_counterexample :
    validate 5 [⟨⟨-1, 3⟩, "hel".toList, "x".toList, "e".toList⟩] = [] ∧
    (clampPos 5 ⟨-1, 3⟩).start < (clampPos 5 ⟨-1, 3⟩).stop := by
  constructor
  · decide
  · decide

/-- C7 (amended): the validator checks `0 ≤ start`, `end ≤ textLength`
and `start < end` on the raw bounds and rejects any violation before the
clamp runs; consequently the clamp is the identity on every kept
suggestion and every kept suggestion satisfies the in-bounds invariant. -/
theorem c7_amended_filter_before_clamp (textLen : Nat) (raw : List RawSuggestion)
    (s : RawSuggestion) (h : s ∈ validate textLen raw) :
    0 ≤ s.position.start ∧ s.position.start < s.position.stop ∧
      s.position.stop ≤ (textLen : Int) ∧ clampPos textLen s.position = s.position := by
  obtain ⟨r, hraw, hfil, hs⟩ := validate_mem textLen raw s h
  have hcl := clampPos_of_valid textLen r hfil
  obtain ⟨h1, h2, h3, -⟩ := validFilter_parts textLen r hfil
  rw [hs]
  simp only [clampSuggestion]
  rw [hcl]
  exact ⟨h1, h3, h2, hcl⟩

/-- Witness for C7 (amended) on a kept in-bounds suggestion. -/
theorem c7_amended_filter_before_clamp_witness :
    0 ≤ ((⟨⟨0, 3⟩, "hel".toList, "x".toList, "e".toList⟩ : RawSuggestion)).position.start ∧
    ((⟨⟨0, 3⟩, "hel".toList, "x".toList, "e".toList⟩ : RawSuggestion)).position.start <
      ((⟨⟨0, 3⟩, "hel".toList, "x".toList, "e".toList⟩ : RawSuggestion)).position.stop ∧
    ((⟨⟨0, 3⟩, "hel".toList, "x".toList, "e".toList⟩ : RawSuggestion)).position.stop ≤
      ((5 : Nat) : Int) ∧
    clampPos 5 ((⟨⟨0, 3⟩, "hel".toList, "x".toList, "e".toList⟩ : RawSuggestion)).position =
      ((⟨⟨0, 3⟩, "hel".toList, "x".toList, "e".toList⟩ : RawSuggestion)).position :=
  c7_amended_filter_before_clamp 5 [⟨⟨0, 3⟩, "hel".toList, "x".toList, "e".toList⟩]
    ⟨⟨0, 3⟩, "hel".toList, "x".toList, "e".toList⟩ (by decide)

/-- C8 counterexample: a raw suggestion whose original `"Teh "` and
correction `"teh"` are equal after trimming and case folding is kept by
the validator (its comparison is exact `!==`), contradicting the claim
that such suggestions are dropped. -/
theorem c8_trim_ci_counterexample :
    validate 10 [⟨⟨0, 4⟩, "Teh ".toList, "teh".toList, "e".toList⟩] =
      [⟨⟨0, 4⟩, "Teh ".toList, "teh".toList, "e".toList⟩] ∧
    jsTrim (lowerStr "Teh ".toList) = jsTrim (lowerStr "teh".toList) := by
  constructor
  · decide
  · decide

/-- C8 (amended): the validator rejects exactly the suggestions whose
original is character-for-character equal to the correction; every kept
suggestion differs from its correction as a plain string (it may still be
equal after trimming and case folding). -/
theorem c8_amended_exact_inequality_only (textLen : Nat) (raw : List RawSuggestion)
    (s : RawSuggestion) (h : s ∈ validate textLen raw) :
    s.original ≠ s.correction := by
  obtain ⟨r, hraw, hfil, hs⟩ := validate_mem textLen raw s h
  obtain ⟨-, -, -, hne⟩ := validFilter_parts textLen r hfil
  rw [hs]
  exact hne

/-- Witness for C8 (amended) on a kept suggestion. -/
theorem c8_amended_exact_inequality_only_witness :
    ((⟨⟨0, 2⟩, "ab".toList, "cd".toList, "e".toList⟩ : RawSuggestion)).original ≠
      ((⟨⟨0, 2⟩, "ab".toList, "cd".toList, "e".toList⟩ : RawSuggestion)).correction :=
  c8_amended_exact_inequality_only 9 [⟨⟨0, 2⟩, "ab".toList, "cd".toList, "e".toList⟩]
    ⟨⟨0, 2⟩, "ab".toList, "cd".toList, "e".toList⟩ (by decide)

/-- C9 counterexample: on text `"scat cat"` with suggestion original
`"cat"` at stated span `[1, 4)`, reconcile accepts the stated span (the
text there is exactly `"cat"`), but apply-all, which skips the exact and
case/trim-insensitive tiers, resolves the suggestion to the word-boundary
match at `[5, 8)`; the two spliced spans differ. -/
theorem c9_resolution_counterexample :
    reconcile "scat cat".toList ⟨"cat".toList, "dog".toList, ⟨1, 4⟩⟩ = some ⟨1, 4⟩ ∧
    applyAllResolve "scat cat".toList ⟨"cat".toList, "dog".toList, ⟨1, 4⟩⟩ =
      some ⟨5, 8⟩ ∧
    ((⟨5, 8⟩ : Pos) ≠ ⟨1, 4⟩) := by
  refine ⟨by decide, by decide, by decide⟩

/-- C9 (amended): apply-all resolves each suggestion against the current
text by the locator-plus-closest-match rule alone; this agrees with
apply-one's reconciliation exactly when the text at the stated span
matches the original neither exactly nor case/trim-insensitively. -/
theorem c9_amended_applyAll_resolution (t : Text) (s : Suggestion)
    (h1 : jsSubstring t s.position.start s.position.stop ≠ s.original)
    (h2 : jsTrim (lowerStr (jsSubstring t s.position.start s.position.stop)) ≠
      jsTrim (lowerStr s.original)) :
    applyAllResolve t s = reconcile t s := by
  simp only [reconcile]
  rw [if_neg h1, if_neg h2]
  rfl

/-- Witness for C9 (amended): on the shifted-span example both resolution
paths agree. -/
theorem c9_amended_applyAll_resolution_witness :
    applyAllResolve "The qick fox".toList ⟨"qick".toList, "quick".toList, ⟨0, 4⟩⟩ =
      reconcile "The qick fox".toList ⟨"qick".toList, "quick".toList, ⟨0, 4⟩⟩ :=
  c9_amended_applyAll_resolution "The qick fox".toList
    ⟨"qick".toList, "quick".toList, ⟨0, 4⟩⟩ (by decide) (by decide)

/-- C10: every match returned by the locator is a well-formed occurrence:
`start < end ≤ len(text)`, its width equals the length of the trimmed
search word, its `matchedText` is exactly `text[start:end]` and equals the
trimmed word case-insensitively, and the matches are pairwise disjoint in
ascending order (`end` of each at most `start` of the next). -/
theorem c10_locator_matches_wellformed (text word : Text) (hint : Nat) :
    (∀ m ∈ findWordBoundaries text word hint,
      m.start < m.stop ∧ m.stop ≤ text.length ∧
      m.stop - m.start = (jsTrim word).length ∧
      m.text = (text.drop m.start).take (m.stop - m.start) ∧
      lowerStr m.text = lowerStr (jsTrim word)) ∧
    (findWordBoundaries text word hint).Pairwise (fun a b => a.stop ≤ b.start) := by
  refine ⟨?_, findWordBoundaries_pairwise_disjoint text word hint⟩
  intro m hm
  obtain ⟨hsw, hmatch, hstop, htext⟩ := findWordBoundaries_mem text word hint m hm
  have hL : 0 < (jsTrim (lowerStr word)).length := List.length_pos.mpr hsw
  have hlen := matchAt_length text _ m.start hsw hmatch
  have hlenw : (jsTrim (lowerStr word)).length = (jsTrim word).length := by
    rw [jsTrim_lowerStr, lowerStr_length]
  refine ⟨by omega, by omega, by omega, ?_, ?_⟩
  · rw [htext]
    congr 1
    omega
  · have hparts := (matchAt_parts text _ m.start hmatch).1
    rw [htext, hparts, jsTrim_lowerStr]

/-- Witness for C10 at the match of `"qick"` in `"The qick fox"`. -/
theorem c10_locator_matches_wellformed_witness :
    (⟨4, 8, "qick".toList⟩ : WMatch).start < (⟨4, 8, "qick".toList⟩ : WMatch).stop ∧
    (⟨4, 8, "qick".toList⟩ : WMatch).stop ≤ "The qick fox".toList.length ∧
    (⟨4, 8, "qick".toList⟩ : WMatch).stop - (⟨4, 8, "qick".toList⟩ : WMatch).start =
      (jsTrim "qick".toList).length ∧
    (⟨4, 8, "qick".toList⟩ : WMatch).text =
      ("The qick fox".toList.drop (⟨4, 8, "qick".toList⟩ : WMatch).start).take
        ((⟨4, 8, "qick".toList⟩ : WMatch).stop - (⟨4, 8, "qick".toList⟩ : WMatch).start) ∧
    lowerStr (⟨4, 8, "qick".toList⟩ : WMatch).text = lowerStr (jsTrim "qick".toList) :=
  (c10_locator_matches_wellformed "The qick fox".toList "qick".toList 0).1
    ⟨4, 8, "qick".toList⟩ (by decide)

end WriteFlow
